import Mathlib

/-!
Verification of the polygon-edge repository slice: the `restore` package
(chain import from an RLP block stream) embedded directly from its source,
and the `network` package (connection manager, address codec, event bus,
discovery, reconnection) modelled from the specification, since only its
tests are present in the repository slice.
-/

/-! ## Restore package: data model (types.Block, blockchainInterface) -/

/-- A block, reduced to the two fields the restore code reads
(`Number()` and `Hash()`); hashes are modelled as natural numbers. -/
structure Block where
  number : Nat
  hash : Nat
deriving DecidableEq

/-- The `blockchainInterface` consumed by the restore code: `Genesis()`,
`GetHashByNumber(n)`, and `WriteBlocks(blocks)`.  `WriteBlocks` is modelled
as a pure oracle returning success or an error message. -/
structure Chain where
  genesis : Nat
  getHashByNumber : Nat → Nat
  writeBlocks : List Block → Except String Unit

/-- One outcome of a `blockStream.nextBlock` call: a parsed block, or a
stream error.  A stream is a list of such outcomes; once the list is
exhausted every further `nextBlock` call reports end-of-file, which the
Go code surfaces as a `nil` block. -/
inductive StreamItem where
  | ok (b : Block)
  | err (e : String)
deriving DecidableEq

/-- The errors the restore functions can return. -/
inductive RestoreErr where
  | genesisMismatch (got expected : Nat)
  | streamErr (e : String)
  | writeErr (e : String)
deriving DecidableEq

/-- `chunkSize`: size of the chunks handed to `WriteBlocks`. -/
def chunkSize : Nat := 10

/-- Go `consumeCommonBlocks` (part_000 lines 101-126), additionally
returning the unconsumed remainder of the stream so that `importBlocks`
can continue from it.  The shutdown channel is modelled as never
signalled. -/
def consumeCommonBlocksAux (chain : Chain) :
    List StreamItem → Except RestoreErr (Option (Block × List StreamItem))
  | [] => .ok none
  | .err e :: _ => .error (.streamErr e)
  | .ok b :: rest =>
    if b.number = 0 then
      if b.hash ≠ chain.genesis then
        .error (.genesisMismatch b.hash chain.genesis)
      else
        consumeCommonBlocksAux chain rest
    else if chain.getHashByNumber b.number ≠ b.hash then
      .ok (some (b, rest))
    else
      consumeCommonBlocksAux chain rest

/-- Go `consumeCommonBlocks` as it is called: the first block to be
written into the chain (or `none` when the stream has no such block). -/
def consumeCommonBlocks (chain : Chain) (s : List StreamItem) :
    Except RestoreErr (Option Block) :=
  (consumeCommonBlocksAux chain s).map (fun o => o.map Prod.fst)

/-- A block already common with the chain, hence skipped by
`consumeCommonBlocks`: a genesis block with the chain's genesis hash, or a
block whose hash equals the chain's hash at its height. -/
def commonWithChain (chain : Chain) (b : Block) : Bool :=
  if b.number = 0 then b.hash = chain.genesis
  else chain.getHashByNumber b.number = b.hash

/-- A stream item at which `consumeCommonBlocks` stops scanning: a stream
error, or a block that is not common with the chain. -/
def relevantItem (chain : Chain) : StreamItem → Bool
  | .err _ => true
  | .ok b => ! commonWithChain chain b

/-- `lastBlockNumber blocks` models `blocks[len(blocks)-1].Number()`. -/
def lastBlockNumber (blocks : List Block) : Nat :=
  ((blocks.getLast?).map Block.number).getD 0

/-- The inner chunk-filling loop of Go `importBlocks` (part_000 lines
63-73): pulls blocks from the stream until the chunk holds `chunkSize`
blocks or the stream ends, propagating stream errors.  (When the stream
is exhausted the chunk-size test is immaterial: both branches return the
chunk and the empty stream.) -/
def fillChunk : List StreamItem → List Block →
    Except RestoreErr (List Block × List StreamItem)
  | [], blocks => .ok (blocks, [])
  | .err e :: rest, blocks =>
    if blocks.length < chunkSize then .error (.streamErr e)
    else .ok (blocks, .err e :: rest)
  | .ok b :: rest, blocks =>
    if blocks.length < chunkSize then fillChunk rest (blocks ++ [b])
    else .ok (blocks, .ok b :: rest)

/-- The outer write loop of Go `importBlocks` (part_000 lines 61-91):
repeatedly fills a chunk and hands it to `chain.WriteBlocks`, tracking
`lastBlockNumber`.  Besides the Go result it returns the trace of
arguments passed to `WriteBlocks`, so that the calls can be reasoned
about. -/
def importLoop (chain : Chain) (s : List StreamItem) (blocks : List Block)
    (lastNum : Nat) : Except RestoreErr Nat × List (List Block) :=
  match h : fillChunk s blocks with
  | .error e => (.error e, [])
  | .ok (blocks', s') =>
    if hb : blocks' = [] then
      (.ok lastNum, [])
    else
      match chain.writeBlocks blocks' with
      | .error e => (.error (.writeErr e), [blocks'])
      | .ok _ =>
        let r := importLoop chain s' [] (lastBlockNumber blocks')
        (r.1, blocks' :: r.2)
termination_by s.length + blocks.length
decreasing_by
  have hbal : ∀ (t : List StreamItem) (bl bl' : List Block) (t' : List StreamItem),
      fillChunk t bl = .ok (bl', t') →
      t'.length + bl'.length ≤ t.length + bl.length := by
    intro t
    induction t with
    | nil =>
      intro bl bl' t' hf
      simp only [fillChunk] at hf
      cases hf
      simp
    | cons it rest ih =>
      intro bl bl' t' hf
      cases it with
      | err e =>
        simp only [fillChunk] at hf
        split at hf
        · cases hf
        · cases hf
          simp
      | ok b =>
        simp only [fillChunk] at hf
        split at hf
        · have := ih _ _ _ hf
          simp only [List.length_cons, List.length_append,
            List.length_singleton, List.length_nil] at this ⊢
          omega
        · cases hf
          simp
  have h1 := hbal s blocks blocks' s' h
  have h2 : 0 < blocks'.length := List.length_pos.mpr hb
  simp only [List.length_nil]
  omega

/-- Go `importBlocks` (part_000 lines 35-97): scans past blocks common
with the chain, then writes the remaining blocks in chunks.  Returns the
Go triple `(from, to, err)` as `Except` of a pair, together with the
trace of `WriteBlocks` call arguments. -/
def importBlocks (chain : Chain) (s : List StreamItem) :
    Except RestoreErr (Nat × Nat) × List (List Block) :=
  match consumeCommonBlocksAux chain s with
  | .error e => (.error e, [])
  | .ok none => (.ok (0, 0), [])
  | .ok (some (b, s')) =>
    let r := importLoop chain s' [b] 0
    match r.1 with
    | .error e => (.error e, r.2)
    | .ok lastNum => (.ok (b.number, lastNum), r.2)

/-! ## Restore package: blockStream at byte level (nextBlock) -/

/-- Errors of the byte-level block stream. -/
inductive RlpErr where
  | eof
  | notArray
  | blockDecodeFailure (e : String)
deriving DecidableEq

/-- Models a Go `io.Reader.Read` into a `k`-byte buffer: reports `io.EOF`
when no byte is available, otherwise returns the available bytes, up to
`k` (the Go code never retries short reads). -/
def readBytes (k : Nat) (input : List Nat) : Except RlpErr (List Nat × List Nat) :=
  if k = 0 then .ok ([], input)
  else
    match input with
    | [] => .error .eof
    | _ => .ok (input.take k, input.drop k)

/-- Big-endian byte interpretation, as `big.Int SetBytes` does. -/
def bytesToNat (bs : List Nat) : Nat :=
  bs.foldl (fun acc b => acc * 256 + b) 0

/-- Go `blockStream.loadPrefixSize` (part_000 lines 172-192): from the
first RLP byte, the payload size; the raw size bytes consumed are
returned in place of `payloadSizeSize`.  A first byte below `0xc0` is not
an RLP array and yields the `expected arrray but got bytes` error. -/
def loadArraySize (pfxByte : Nat) (input : List Nat) :
    Except RlpErr (Nat × List Nat × List Nat) :=
  if 0xc0 ≤ pfxByte ∧ pfxByte ≤ 0xf7 then
    .ok (pfxByte - 0xc0, [], input)
  else if 0xf8 ≤ pfxByte then
    match readBytes (pfxByte - 0xf7) input with
    | .error e => .error e
    | .ok (bs, rest) => .ok (bytesToNat bs, bs, rest)
  else
    .error .notArray

/-- Go `blockStream.nextBlock` (part_000 lines 142-159).  The first byte
is read by `loadRLPPrefix`; end-of-file there is surfaced as a `nil`
block, other errors propagate.  `types.Block.UnmarshalRLP` is external
code and is passed in as the `parseBlock` parameter. -/
def nextBlock (parseBlock : List Nat → Except RlpErr Block)
    (input : List Nat) : Except RlpErr (Option Block × List Nat) :=
  match input with
  | [] => .ok (none, [])
  | pb :: rest =>
    match loadArraySize pb rest with
    | .error e => .error e
    | .ok (psize, sizeBytes, rest1) =>
      match readBytes psize rest1 with
      | .error e => .error e
      | .ok (payload, rest2) =>
        match parseBlock (pb :: sizeBytes ++ payload) with
        | .error e => .error e
        | .ok blk => .ok (some blk, rest2)

/-! ## Network package: connection manager (spec-modelled) -/

/-- Modelled from the spec: the direction tag of a `Connection`
(`inbound` | `outbound`).  The network package implementation is not part
of this repository slice; only its tests are, so the connection manager
is modelled from the specification (§3, §4.3). -/
inductive Direction where
  | inbound
  | outbound
deriving DecidableEq

/-- Modelled from the spec: the connection-manager configuration:
`MaxPeers` together with the per-direction sub-limits of the two-sided
limit policy (§3 "Slot accounting"). -/
structure ConnConfig where
  maxPeers : Nat
  maxInbound : Nat
  maxOutbound : Nat

/-- The slot limit of one direction. -/
def dirLimit (cfg : ConnConfig) : Direction → Nat
  | .inbound => cfg.maxInbound
  | .outbound => cfg.maxOutbound

/-- The used slots of one direction: connections tagged with that
direction.  The connection set holds one entry per connected Identity. -/
def usedSlots (conns : List (Nat × Direction)) (d : Direction) : Nat :=
  (conns.filter (fun c => decide (c.2 = d))).length

/-- Modelled from the spec (§4.3): the single admission check shared by
the inbound path and dial completion: an already-connected Identity is a
no-op (`AlreadyConnected`); a full direction rejects the link
(`FailedToConnect`); otherwise the connection is recorded and the slot
taken in one atomic step. -/
def admitConn (cfg : ConnConfig) (conns : List (Nat × Direction))
    (id : Nat) (d : Direction) : List (Nat × Direction) :=
  if conns.any (fun c => decide (c.1 = id)) then conns
  else if usedSlots conns d < dirLimit cfg d then (id, d) :: conns
  else conns

/-- Modelled from the spec (§4.3): `Disconnect` removes the connection
record and frees its slot. -/
def disconnectConn (conns : List (Nat × Direction)) (id : Nat) :
    List (Nat × Direction) :=
  conns.filter (fun c => decide (c.1 ≠ id))

/-- One step of an interleaving: an inbound admission or outbound dial
completion (both routed through the one admission check), or a
disconnect. -/
inductive ConnEvent where
  | connect (id : Nat) (d : Direction)
  | disconnect (id : Nat)

/-- The connection-manager state reached from the empty connection set
under an arbitrary interleaving of admissions and disconnects. -/
def runConnManager (cfg : ConnConfig) (evs : List ConnEvent) :
    List (Nat × Direction) :=
  evs.foldl
    (fun conns ev =>
      match ev with
      | .connect id d => admitConn cfg conns id d
      | .disconnect id => disconnectConn conns id)
    []

/-! ## Network package: bootnode validation (spec-modelled) -/

/-- Configuration errors of server construction. -/
inductive ConfigErr where
  | insufficientBootnodes
deriving DecidableEq

/-- The minimum bootnode count required when discovery is enabled. -/
def minimumBootNodes : Nat := 2

/-- Modelled from the spec (§4.4): the validation invariant enforced at
server-construction time (the network server implementation is not in
this repository slice): with discovery enabled (`NoDiscover = false`),
fewer than two bootnodes is a fatal configuration error, before any
networking starts. -/
def validateBootnodes (noDiscover : Bool) (bootnodes : List String) :
    Except ConfigErr Unit :=
  if noDiscover then .ok ()
  else if bootnodes.length < minimumBootNodes then
    .error .insufficientBootnodes
  else .ok ()

/-! ## Network package: peer event bus (spec-modelled) -/

/-- The peer event kinds (spec §3 `PeerEvent`, test `PeerEventType`). -/
inductive PeerEventType where
  | PeerConnected
  | PeerFailedToConnect
  | PeerDisconnected
  | PeerAlreadyConnected
  | PeerDialCompleted
  | PeerAddedToDialQueue
deriving DecidableEq

/-- A peer event: `{Identity, Kind}`. -/
structure PeerEvent where
  peerID : Nat
  eventType : PeerEventType
deriving DecidableEq

/-- Modelled from the spec (§4.2, §9): the bus keeps one queue per
subscriber; `emitEvent` is a single broadcast step appending the event
to every subscriber queue. -/
def emitEvent (subs : List (List PeerEvent)) (ev : PeerEvent) :
    List (List PeerEvent) :=
  subs.map (fun q => q ++ [ev])

/-- Emitting a sequence of events in order. -/
def emitAll (subs : List (List PeerEvent)) (evs : List PeerEvent) :
    List (List PeerEvent) :=
  evs.foldl emitEvent subs

/-- Modelled from the spec: `Subscription.Get` pops the oldest pending
event of the subscriber queue (`none` models a blocked consumer: no
event yet). -/
def subGet (q : List PeerEvent) : Option PeerEvent × List PeerEvent :=
  match q with
  | [] => (none, [])
  | e :: rest => (some e, rest)

/-- The serial scenario of the test: for each event, emit it to a
subscriber queue and immediately read; collects the reads. -/
def runSerial (q : List PeerEvent) : List PeerEvent → List (Option PeerEvent)
  | [] => []
  | e :: evs =>
    (subGet (q ++ [e])).1 :: runSerial (subGet (q ++ [e])).2 evs

/-- Reading `n` events from a subscriber queue. -/
def readN : Nat → List PeerEvent → List (Option PeerEvent)
  | 0, _ => []
  | n + 1, q => (subGet q).1 :: readN n (subGet q).2

/-! ## Network package: discovery FindPeers (spec-modelled) -/

/-- Insertion step of sorting by ascending XOR distance to `target`. -/
def insertByDist (target x : Nat) : List Nat → List Nat
  | [] => [x]
  | y :: ys =>
    if Nat.xor x target ≤ Nat.xor y target then x :: y :: ys
    else y :: insertByDist target x ys

/-- Sort a table by ascending XOR distance to `target`. -/
def sortByDist (target : Nat) : List Nat → List Nat
  | [] => []
  | x :: xs => insertByDist target x (sortByDist target xs)

/-- Modelled from the spec (§4.4): `ClosestTo(target, n)`: up to `n`
table entries by ascending XOR distance from the target Identity. -/
def closestTo (table : List Nat) (target n : Nat) : List Nat :=
  (sortByDist target table).take n

/-- Modelled from the spec (§4.4): the responder side of `FindPeers`:
peers of the local routing table near the target, excluding the
requesting peer's own Identity even when present in the table. -/
def handleFindPeers (table : List Nat) (requester target n : Nat) :
    List Nat :=
  (closestTo table target n).filter (fun p => decide (p ≠ requester))

/-! ## Network package: reconnection supervisor (spec-modelled) -/

/-- A pending dial task: target Identity and attempt count (backoff
state). -/
structure DialTask where
  target : Nat
  attempts : Nat
deriving DecidableEq

/-- The supervisor-visible state: the live connection count and the dial
queue. -/
structure SupervisorState where
  connCount : Nat
  dialQueue : List DialTask

/-- Modelled from the spec (§4.5): when the live connection count
transitions to zero after having been non-zero, the supervisor re-seeds
the dial queue with the full bootnode list, resetting attempt/backoff
state. -/
def superviseStep (bootnodes : List Nat) (st : SupervisorState)
    (newCount : Nat) : SupervisorState :=
  if 0 < st.connCount ∧ newCount = 0 then
    ⟨newCount, bootnodes.map (fun b => ⟨b, 0⟩)⟩
  else
    ⟨newCount, st.dialQueue⟩

/-- Modelled from the spec: one bounded pass of the dial workers over
the queue against a reachability oracle; yields the Identities that got
connected. -/
def processDialQueue (reachable : Nat → Bool) (queue : List DialTask) :
    List Nat :=
  (queue.filter (fun t => reachable t.target)).map DialTask.target

/-! ## Network package: address codec (spec-modelled) -/

/-- Modelled from the spec (§6): an IP address as the multiaddr library
holds it after parsing: four IPv4 octets, or eight 16-bit IPv6 groups. -/
inductive IpAddr where
  | ip4 (a b c d : Nat)
  | ip6 (groups : List Nat)
deriving DecidableEq

/-- A transport address: IP, TCP port. -/
structure Multiaddr where
  ip : IpAddr
  port : Nat
deriving DecidableEq

/-- `peer.AddrInfo`: an Identity with its address set.  Identities are
rendered decimally into the encoded string, so they are modelled as
naturals. -/
structure AddrInfo where
  id : Nat
  addrs : List Multiaddr
deriving DecidableEq

/-- Loopback addresses: IPv4 `127.0.0.0/8`, IPv6 `::1`. -/
def isLoopback : Multiaddr → Bool
  | ⟨.ip4 a _ _ _, _⟩ => a == 127
  | ⟨.ip6 g, _⟩ => g == [0, 0, 0, 0, 0, 0, 0, 1]

/-- Digit value of a character, accepting both hex letter cases. -/
def charVal (c : Char) : Option Nat :=
  if '0' ≤ c ∧ c ≤ '9' then some (c.toNat - '0'.toNat)
  else if 'a' ≤ c ∧ c ≤ 'f' then some (c.toNat - 'a'.toNat + 10)
  else if 'A' ≤ c ∧ c ≤ 'F' then some (c.toNat - 'A'.toNat + 10)
  else none

/-- Base-`b` digits of `n`, least significant first, with explicit fuel
so that the kernel can evaluate it. -/
def natDigitsAux (b : Nat) : Nat → Nat → List Nat
  | 0, _ => []
  | fuel + 1, n => if n = 0 then [] else n % b :: natDigitsAux b fuel (n / b)

/-- Base-`b` digits of `n`, least significant first. -/
def natDigits (b n : Nat) : List Nat :=
  natDigitsAux b n n

/-- `n` rendered in base `b`, most significant digit first, lowercase
hex letters; `"0"` for zero. -/
def renderNat (b n : Nat) : List Char :=
  if n = 0 then ['0'] else ((natDigits b n).map Nat.digitChar).reverse

/-- One step of numeric parsing: accumulate a digit below the base. -/
def parseStep (b : Nat) (acc : Option Nat) (c : Char) : Option Nat :=
  match acc, charVal c with
  | some a, some d => if d < b then some (a * b + d) else none
  | _, _ => none

/-- Parse a non-empty base-`b` digit sequence, most significant first. -/
def parseNat (b : Nat) (cs : List Char) : Option Nat :=
  if cs.isEmpty then none else cs.foldl (parseStep b) (some 0)

/-- The dotted-quad rendering of an IPv4 address. -/
def renderIp4 (a b c d : Nat) : List Char :=
  List.intercalate ['.'] [renderNat 10 a, renderNat 10 b, renderNat 10 c, renderNat 10 d]

/-- Parse a dotted quad. -/
def parseIp4 (cs : List Char) : Option IpAddr :=
  match cs.splitOn '.' with
  | [pa, pb, pc, pd] =>
    match parseNat 10 pa, parseNat 10 pb, parseNat 10 pc, parseNat 10 pd with
    | some a, some b, some c, some d =>
      if a ≤ 255 ∧ b ≤ 255 ∧ c ≤ 255 ∧ d ≤ 255 then some (.ip4 a b c d)
      else none
    | _, _, _, _ => none
  | _ => none

/-- Length of the leading run of zero groups. -/
def zeroRunLen : List Nat → Nat
  | 0 :: rest => zeroRunLen rest + 1
  | _ => 0

/-- The leftmost longest run of zero groups: `(start, length)`. -/
def longestZeroRun : List Nat → Nat × Nat
  | [] => (0, 0)
  | g :: rest =>
    let here := zeroRunLen (g :: rest)
    let p := longestZeroRun rest
    if p.2 ≤ here then (0, here) else (p.1 + 1, p.2)

/-- Colon-separated lowercase-hex rendering of a group sequence. -/
def renderIp6Parts (gs : List Nat) : List Char :=
  List.intercalate [':'] (gs.map (renderNat 16))

/-- Modelled from the spec (§4.1): the canonical compressed textual form
of an IPv6 address: the leftmost longest run of at least two zero groups
is compressed to `::`. -/
def renderIp6 (gs : List Nat) : List Char :=
  if 2 ≤ (longestZeroRun gs).2 then
    renderIp6Parts (gs.take (longestZeroRun gs).1) ++
      ':' :: ':' ::
        renderIp6Parts (gs.drop ((longestZeroRun gs).1 + (longestZeroRun gs).2))
  else
    renderIp6Parts gs

/-- Split a character sequence at the first `::` occurrence. -/
def splitAtDoubleColon : List Char → Option (List Char × List Char)
  | [] => none
  | [_] => none
  | c1 :: c2 :: rest =>
    if c1 = ':' ∧ c2 = ':' then some ([], rest)
    else
      match splitAtDoubleColon (c2 :: rest) with
      | some p => some (c1 :: p.1, p.2)
      | none => none

/-- Parse each colon-separated chunk as a 16-bit hex group. -/
def parseGroups : List (List Char) → Option (List Nat)
  | [] => some []
  | ch :: rest =>
    match parseNat 16 ch, parseGroups rest with
    | some v, some vs => if v < 65536 then some (v :: vs) else none
    | _, _ => none

/-- Parse an IPv6 textual form, expanded or `::`-compressed, into its
eight groups. -/
def parseIp6 (cs : List Char) : Option (List Nat) :=
  match splitAtDoubleColon cs with
  | none =>
    match parseGroups (cs.splitOn ':') with
    | some gs => if gs.length = 8 then some gs else none
    | none => none
  | some p =>
    match (if p.1.isEmpty then some [] else parseGroups (p.1.splitOn ':')),
        (if p.2.isEmpty then some [] else parseGroups (p.2.splitOn ':')) with
    | some lg, some rg =>
      if lg.length + rg.length ≤ 7 then
        some (lg ++ List.replicate (8 - lg.length - rg.length) 0 ++ rg)
      else none
    | _, _ => none

/-- The protocol tag of an address: `ip4` or `ip6`. -/
def ipTag : IpAddr → List Char
  | .ip4 _ _ _ _ => ['i', 'p', '4']
  | .ip6 _ => ['i', 'p', '6']

/-- The textual form of an address (canonical for IPv6). -/
def ipText : IpAddr → List Char
  | .ip4 a b c d => renderIp4 a b c d
  | .ip6 gs => renderIp6 gs

/-- The multiaddr path `/<ip-version>/<ip>/tcp/<port>` (spec §6). -/
def renderMultiaddr (m : Multiaddr) : List Char :=
  '/' :: (ipTag m.ip ++ '/' :: (ipText m.ip ++
    '/' :: 't' :: 'c' :: 'p' :: '/' :: renderNat 10 m.port))

/-- Modelled from the spec (§4.1): the dial address chosen for encoding:
the first non-loopback address when one exists, otherwise the first
address. -/
def selectDialAddr (addrs : List Multiaddr) : Option Multiaddr :=
  match addrs.filter (fun a => ! isLoopback a) with
  | a :: _ => some a
  | [] => addrs.head?

/-- Modelled from the spec: `AddrInfoToString` — the chosen dial address
followed by `/p2p/<identity>` (the network implementation is not in this
repository slice; encoding rules follow §4.1 and §6). -/
def AddrInfoToString (info : AddrInfo) : List Char :=
  (match selectDialAddr info.addrs with
    | some a => renderMultiaddr a
    | none => []) ++
    '/' :: 'p' :: '2' :: 'p' :: '/' :: renderNat 10 info.id

/-- The codec error: a string without both a routable address component
and an identity component fails to decode (spec §4.1, §7). -/
inductive CodecErr where
  | malformedAddress
deriving DecidableEq

/-- Dispatch on the protocol tag. -/
def parseIpText (tag cs : List Char) : Option IpAddr :=
  if tag = ['i', 'p', '4'] then parseIp4 cs
  else if tag = ['i', 'p', '6'] then (parseIp6 cs).map IpAddr.ip6
  else none

/-- Modelled from the spec: `StringToAddrInfo` — parse
`/<ip-version>/<ip>/tcp/<port>/p2p/<identity>`; anything else is a
`MalformedAddress` error. -/
def StringToAddrInfo (cs : List Char) : Except CodecErr AddrInfo :=
  match cs.splitOn '/' with
  | [[], tag, ipStr, tcp, portStr, p2p, idStr] =>
    if tcp = ['t', 'c', 'p'] ∧ p2p = ['p', '2', 'p'] then
      match parseIpText tag ipStr, parseNat 10 portStr, parseNat 10 idStr with
      | some ip, some port, some id => .ok ⟨id, [⟨ip, port⟩]⟩
      | _, _, _ => .error .malformedAddress
    else .error .malformedAddress
  | _ => .error .malformedAddress

/-- Well-formed addresses: octets fit a byte, groups fit 16 bits and
come eight at a time. -/
def validMultiaddr : Multiaddr → Prop
  | ⟨.ip4 a b c d, _⟩ => a ≤ 255 ∧ b ≤ 255 ∧ c ≤ 255 ∧ d ≤ 255
  | ⟨.ip6 gs, _⟩ => gs.length = 8 ∧ ∀ v ∈ gs, v < 65536

/-! ## Theorems: restore helper lemmas -/

/-- On success `fillChunk` consumes exactly the items it turned into
blocks: length balance between stream and chunk. -/
theorem fillChunk_balance :
    ∀ (s : List StreamItem) (blocks : List Block)
      {blocks' : List Block} {s' : List StreamItem},
      fillChunk s blocks = .ok (blocks', s') →
      s'.length + blocks'.length ≤ s.length + blocks.length := by
  intro s
  induction s with
  | nil =>
    intro blocks blocks' s' h
    simp only [fillChunk] at h
    cases h
    simp
  | cons it rest ih =>
    intro blocks blocks' s' h
    cases it with
    | err e =>
      simp only [fillChunk] at h
      split at h
      · cases h
      · cases h
        simp
    | ok b =>
      simp only [fillChunk] at h
      split at h
      · have := ih _ h
        simp only [List.length_cons, List.length_append,
          List.length_singleton, List.length_nil] at this ⊢
        omega
      · cases h
        simp

/-- On success the chunk `fillChunk` returns extends the chunk it was
given, and stays within `chunkSize` when the input chunk did. -/
theorem fillChunk_chunk :
    ∀ (s : List StreamItem) (blocks : List Block)
      {blocks' : List Block} {s' : List StreamItem},
      fillChunk s blocks = .ok (blocks', s') →
      (blocks ≠ [] → blocks' ≠ []) ∧
        (blocks.length ≤ chunkSize → blocks'.length ≤ chunkSize) := by
  intro s
  induction s with
  | nil =>
    intro blocks blocks' s' h
    simp only [fillChunk] at h
    cases h
    exact ⟨fun hb => hb, fun hb => hb⟩
  | cons it rest ih =>
    intro blocks blocks' s' h
    cases it with
    | err e =>
      simp only [fillChunk] at h
      split at h
      · cases h
      · cases h
        exact ⟨fun hb => hb, fun hb => hb⟩
    | ok b =>
      simp only [fillChunk] at h
      split at h
      · rename_i hlt
        have := ih _ h
        refine ⟨fun _ => this.1 (by simp), fun _ => this.2 ?_⟩
        simp only [List.length_append, List.length_singleton]
        omega
      · cases h
        exact ⟨fun hb => hb, fun hb => hb⟩

/-- Unfolding equation for `importLoop` when `fillChunk` fails. -/
theorem importLoop_eq_error {chain : Chain} {s : List StreamItem}
    {blocks : List Block} {lastNum : Nat} {e : RestoreErr}
    (h : fillChunk s blocks = .error e) :
    importLoop chain s blocks lastNum = (.error e, []) := by
  rw [importLoop.eq_def]
  split <;> simp_all

/-- Unfolding equation for `importLoop` when the chunk comes back empty. -/
theorem importLoop_eq_empty {chain : Chain} {s : List StreamItem}
    {blocks : List Block} {lastNum : Nat} {s' : List StreamItem}
    (h : fillChunk s blocks = .ok ([], s')) :
    importLoop chain s blocks lastNum = (.ok lastNum, []) := by
  rw [importLoop.eq_def]
  split
  · simp_all
  · rename_i blocks' s'' heq
    rw [h] at heq
    cases heq
    simp

/-- Unfolding equation for `importLoop` when `WriteBlocks` fails. -/
theorem importLoop_eq_writeErr {chain : Chain} {s : List StreamItem}
    {blocks blocks' : List Block} {lastNum : Nat} {s' : List StreamItem}
    {e : String}
    (h : fillChunk s blocks = .ok (blocks', s')) (hb : blocks' ≠ [])
    (hw : chain.writeBlocks blocks' = .error e) :
    importLoop chain s blocks lastNum = (.error (.writeErr e), [blocks']) := by
  rw [importLoop.eq_def]
  split
  · simp_all
  · rename_i bl s'' heq
    rw [h] at heq
    cases heq
    rw [dif_neg hb, hw]

/-- Unfolding equation for `importLoop` when `WriteBlocks` succeeds. -/
theorem importLoop_eq_step {chain : Chain} {s : List StreamItem}
    {blocks blocks' : List Block} {lastNum : Nat} {s' : List StreamItem}
    (h : fillChunk s blocks = .ok (blocks', s')) (hb : blocks' ≠ [])
    (hw : chain.writeBlocks blocks' = .ok ()) :
    importLoop chain s blocks lastNum =
      ((importLoop chain s' [] (lastBlockNumber blocks')).1,
        blocks' :: (importLoop chain s' [] (lastBlockNumber blocks')).2) := by
  rw [importLoop.eq_def]
  split
  · simp_all
  · rename_i bl s'' heq
    rw [h] at heq
    cases heq
    rw [dif_neg hb, hw]

/-- Every `WriteBlocks` call traced by `importLoop` carries a non-empty
chunk of at most `chunkSize` blocks, provided the starting chunk is
within `chunkSize`. -/
theorem importLoop_calls (chain : Chain) (s : List StreamItem)
    (blocks : List Block) (lastNum : Nat)
    (hlen : blocks.length ≤ chunkSize) :
    ∀ c ∈ (importLoop chain s blocks lastNum).2, c ≠ [] ∧ c.length ≤ chunkSize := by
  induction s, blocks, lastNum using importLoop.induct chain with
  | case1 s blocks lastNum e h =>
    rw [importLoop_eq_error h]
    intro c hc
    cases hc
  | case2 s blocks lastNum s' h =>
    rw [importLoop_eq_empty h]
    intro c hc
    cases hc
  | case3 s blocks lastNum blocks' s' h hb e hw =>
    rw [importLoop_eq_writeErr h hb hw]
    intro c hc
    rw [List.mem_singleton] at hc
    subst hc
    exact ⟨hb, (fillChunk_chunk s blocks h).2 hlen⟩
  | case4 s blocks lastNum blocks' s' h hb u hw ih =>
    rw [importLoop_eq_step h hb hw]
    intro c hc
    rw [List.mem_cons] at hc
    rcases hc with hc | hc
    · subst hc
      exact ⟨hb, (fillChunk_chunk s blocks h).2 hlen⟩
    · exact ih (by simp [chunkSize]) c hc

/-- On success `importLoop` returns either its incoming `lastNum` with no
`WriteBlocks` call, or the `lastBlockNumber` of the final chunk it
wrote. -/
theorem importLoop_ok (chain : Chain) (s : List StreamItem)
    (blocks : List Block) (lastNum : Nat) {n : Nat}
    (h : (importLoop chain s blocks lastNum).1 = .ok n) :
    ((importLoop chain s blocks lastNum).2 = [] ∧ n = lastNum) ∨
      ∃ c, (importLoop chain s blocks lastNum).2.getLast? = some c ∧
        n = lastBlockNumber c := by
  induction s, blocks, lastNum using importLoop.induct chain with
  | case1 s blocks lastNum e hf =>
    rw [importLoop_eq_error hf] at h ⊢
    cases h
  | case2 s blocks lastNum s' hf =>
    rw [importLoop_eq_empty hf] at h ⊢
    cases h
    exact Or.inl ⟨rfl, rfl⟩
  | case3 s blocks lastNum blocks' s' hf hb e hw =>
    rw [importLoop_eq_writeErr hf hb hw] at h
    cases h
  | case4 s blocks lastNum blocks' s' hf hb u hw ih =>
    rw [importLoop_eq_step hf hb hw] at h ⊢
    rcases ih h with ⟨hnil, hn⟩ | ⟨c, hc, hn⟩
    · refine Or.inr ⟨blocks', ?_, hn⟩
      rw [hnil]
      rfl
    · refine Or.inr ⟨c, ?_, hn⟩
      rw [List.getLast?_cons, hc]
      cases hcalls : (importLoop chain s' [] (lastBlockNumber blocks')).2 with
      | nil => rw [hcalls] at hc; cases hc
      | cons d l => simp [hcalls, List.getLast?_cons] at hc ⊢

/-- When `importLoop` starts from a non-empty chunk and succeeds, at
least one `WriteBlocks` call was made. -/
theorem importLoop_ok_ne (chain : Chain) (s : List StreamItem)
    (blocks : List Block) (lastNum : Nat) {n : Nat}
    (h : (importLoop chain s blocks lastNum).1 = .ok n)
    (hblocks : blocks ≠ []) :
    (importLoop chain s blocks lastNum).2 ≠ [] := by
  rcases hfc : fillChunk s blocks with e | ⟨blocks', s'⟩
  · rw [importLoop_eq_error hfc] at h
    cases h
  · have hb : blocks' ≠ [] := (fillChunk_chunk s blocks hfc).1 hblocks
    rcases hw : chain.writeBlocks blocks' with e | u
    · rw [importLoop_eq_writeErr hfc hb hw] at h
      cases h
    · rw [importLoop_eq_step hfc hb hw]
      simp

/-- C8.  `consumeCommonBlocks` is characterized by the first "relevant"
stream item: a stream error is propagated; a genesis block (number 0)
whose hash differs from `chain.Genesis()` yields an error; otherwise
every block whose hash matches the chain at its height (and genesis
blocks with the right hash) is skipped, the first diverging block is
returned, and an exhausted stream yields `(nil, nil)`. -/
theorem consumeCommonBlocks_spec (chain : Chain) (s : List StreamItem) :
    consumeCommonBlocks chain s =
      match s.find? (relevantItem chain) with
      | none => .ok none
      | some (.err e) => .error (.streamErr e)
      | some (.ok b) =>
        if b.number = 0 then .error (.genesisMismatch b.hash chain.genesis)
        else .ok (some b) := by
  induction s with
  | nil => rfl
  | cons it rest ih =>
    cases it with
    | err e =>
      simp [consumeCommonBlocks, consumeCommonBlocksAux, List.find?, relevantItem, Except.map]
    | ok b =>
      by_cases h0 : b.number = 0
      · by_cases hg : b.hash = chain.genesis
        · have hcommon : commonWithChain chain b = true := by
            simp [commonWithChain, h0, hg]
          have hrel : relevantItem chain (.ok b) = false := by
            simp [relevantItem, hcommon]
          have haux : consumeCommonBlocksAux chain (.ok b :: rest) =
              consumeCommonBlocksAux chain rest := by
            simp [consumeCommonBlocksAux, h0, hg]
          rw [List.find?_cons_of_neg _ (by simp [hrel])]
          rw [consumeCommonBlocks, haux]
          exact ih
        · have hrel : relevantItem chain (.ok b) = true := by
            simp [relevantItem, commonWithChain, h0, hg]
          rw [List.find?_cons_of_pos _ hrel]
          simp [consumeCommonBlocks, consumeCommonBlocksAux, h0, hg, Except.map]
      · by_cases hh : chain.getHashByNumber b.number = b.hash
        · have hrel : relevantItem chain (.ok b) = false := by
            simp [relevantItem, commonWithChain, h0, hh]
          have haux : consumeCommonBlocksAux chain (.ok b :: rest) =
              consumeCommonBlocksAux chain rest := by
            simp [consumeCommonBlocksAux, h0, hh]
          rw [List.find?_cons_of_neg _ (by simp [hrel])]
          rw [consumeCommonBlocks, haux]
          exact ih
        · have hrel : relevantItem chain (.ok b) = true := by
            simp [relevantItem, commonWithChain, h0, hh]
          rw [List.find?_cons_of_pos _ hrel]
          simp [consumeCommonBlocks, consumeCommonBlocksAux, h0, hh, Except.map]

/-- C9.  `blockStream.nextBlock` returns a `nil` block without error on
end-of-file before the first byte, and returns the `expected arrray but
got bytes` error — never a block — whenever the first byte is below
`0xc0`, for every choice of the external block decoder. -/
theorem nextBlock_eof_nonarray
    (parseBlock : List Nat → Except RlpErr Block) :
    nextBlock parseBlock [] = .ok (none, []) ∧
      ∀ pb rest, pb < 0xc0 →
        nextBlock parseBlock (pb :: rest) = .error .notArray := by
  refine ⟨rfl, fun pb rest hpb => ?_⟩
  have h1 : ¬(0xc0 ≤ pb ∧ pb ≤ 0xf7) := by omega
  have h2 : ¬(0xf8 ≤ pb) := by omega
  simp [nextBlock, loadArraySize, h1, h2]

/-- Witness for C9 at a concrete decoder, first byte `0xbf` and tail
`[1, 2]`. -/
theorem nextBlock_eof_nonarray_witness :
    nextBlock (fun _ => .error (.blockDecodeFailure "boom")) [] = .ok (none, []) ∧
      nextBlock (fun _ => .error (.blockDecodeFailure "boom")) (0xbf :: [1, 2]) =
        .error .notArray :=
  ⟨(nextBlock_eof_nonarray _).1,
    (nextBlock_eof_nonarray _).2 0xbf [1, 2] (by decide)⟩

/-- Unfolding equation for `importBlocks` once `consumeCommonBlocks`
finds a diverging block. -/
theorem importBlocks_eq_found {chain : Chain} {s : List StreamItem}
    {b : Block} {s' : List StreamItem}
    (haux : consumeCommonBlocksAux chain s = .ok (some (b, s'))) :
    importBlocks chain s =
      ((match (importLoop chain s' [b] 0).1 with
        | .error e => .error e
        | .ok lastNum => .ok (b.number, lastNum)),
        (importLoop chain s' [b] 0).2) := by
  rw [importBlocks, haux]
  rcases hr : (importLoop chain s' [b] 0).1 with e | n <;> simp [hr]

/-- C10.  Every `WriteBlocks` call `importBlocks` makes carries a
non-empty chunk of at most `chunkSize = 10` blocks; when the stream has
no block to import the result is `(0, 0, nil)`; and on success the
result is the number of the first diverging block together with the
number of the last block of the final successfully written chunk. -/
theorem importBlocks_spec (chain : Chain) (s : List StreamItem) :
    (∀ c ∈ (importBlocks chain s).2, c ≠ [] ∧ c.length ≤ chunkSize) ∧
      (consumeCommonBlocksAux chain s = .ok none →
        (importBlocks chain s).1 = .ok (0, 0)) ∧
      ∀ b s', consumeCommonBlocksAux chain s = .ok (some (b, s')) →
        ∀ p, (importBlocks chain s).1 = .ok p →
          p.1 = b.number ∧
            ∃ c, (importBlocks chain s).2.getLast? = some c ∧
              p.2 = lastBlockNumber c := by
  refine ⟨?_, ?_, ?_⟩
  · intro c hc
    rcases haux : consumeCommonBlocksAux chain s with e | o
    · rw [importBlocks, haux] at hc
      cases hc
    · rcases o with _ | ⟨b, s'⟩
      · rw [importBlocks, haux] at hc
        cases hc
      · rw [importBlocks_eq_found haux] at hc
        exact importLoop_calls chain s' [b] 0 (by simp [chunkSize]) c hc
  · intro haux
    rw [importBlocks, haux]
  · intro b s' haux p hp
    rw [importBlocks_eq_found haux] at hp ⊢
    rcases hr : (importLoop chain s' [b] 0).1 with e | lastNum
    · rw [hr] at hp
      cases hp
    · rw [hr] at hp
      cases hp
      refine ⟨rfl, ?_⟩
      rcases importLoop_ok chain s' [b] 0 hr with ⟨hnil, _⟩ | ⟨c, hc, hn⟩
      · exact absurd hnil (importLoop_ok_ne chain s' [b] 0 hr (by simp))
      · exact ⟨c, hc, hn⟩

/-- Witness for C10 on a concrete chain and a one-block stream: the
single diverging block number 1 is imported in one chunk, and the
result is `(1, 1)`. -/
theorem importBlocks_spec_witness :
    ((1 : Nat), (1 : Nat)).1 = Block.number ⟨1, 5⟩ ∧
      ∃ c, (importBlocks ⟨0, fun _ => 0, fun _ => .ok ()⟩
          [.ok ⟨1, 5⟩]).2.getLast? = some c ∧
        ((1 : Nat), (1 : Nat)).2 = lastBlockNumber c := by
  have h1 : consumeCommonBlocksAux ⟨0, fun _ => 0, fun _ => .ok ()⟩
      [.ok ⟨1, 5⟩] = .ok (some (⟨1, 5⟩, [])) := rfl
  have h2 : importLoop ⟨0, fun _ => 0, fun _ => .ok ()⟩ [] [⟨1, 5⟩] 0 =
      (.ok 1, [[⟨1, 5⟩]]) := by
    rw [importLoop_eq_step
      (rfl : fillChunk [] [⟨1, 5⟩] = .ok ([⟨1, 5⟩], [])) (by simp) rfl]
    rw [importLoop_eq_empty (rfl : fillChunk [] [] = .ok ([], []))]
    rfl
  have h3 : (importBlocks ⟨0, fun _ => 0, fun _ => .ok ()⟩
      [.ok ⟨1, 5⟩]).1 = .ok (1, 1) := by
    rw [importBlocks_eq_found h1, h2]
  exact (importBlocks_spec ⟨0, fun _ => 0, fun _ => .ok ()⟩
    [.ok ⟨1, 5⟩]).2.2 ⟨1, 5⟩ [] h1 (1, 1) h3

/-! ## Theorems: connection manager (C1) -/

/-- `usedSlots` over a freshly admitted connection. -/
theorem usedSlots_cons (id : Nat) (d' d : Direction)
    (conns : List (Nat × Direction)) :
    usedSlots ((id, d') :: conns) d =
      (if d' = d then 1 else 0) + usedSlots conns d := by
  by_cases h : d' = d <;> simp [usedSlots, List.filter_cons, h] <;> omega

/-- Admission preserves the per-direction slot bounds. -/
theorem usedSlots_admitConn (cfg : ConnConfig) (conns : List (Nat × Direction))
    (id : Nat) (d : Direction)
    (hinv : ∀ d0, usedSlots conns d0 ≤ dirLimit cfg d0) :
    ∀ d0, usedSlots (admitConn cfg conns id d) d0 ≤ dirLimit cfg d0 := by
  intro d0
  rw [admitConn]
  split
  · exact hinv d0
  · split
    · rename_i hlt
      rw [usedSlots_cons]
      by_cases hd : d = d0
      · subst hd
        have := hlt
        simp at this ⊢
        omega
      · simpa [hd] using hinv d0
    · exact hinv d0

/-- Disconnecting never increases a direction's used slots. -/
theorem usedSlots_disconnect (conns : List (Nat × Direction)) (id : Nat)
    (d : Direction) :
    usedSlots (disconnectConn conns id) d ≤ usedSlots conns d :=
  List.Sublist.length_le
    (List.Sublist.filter _ (List.filter_sublist conns))

/-- The per-direction slot bounds hold in every reachable state. -/
theorem runConnManager_inv (cfg : ConnConfig) (evs : List ConnEvent) :
    ∀ d, usedSlots (runConnManager cfg evs) d ≤ dirLimit cfg d := by
  have main : ∀ (l : List ConnEvent) (conns : List (Nat × Direction)),
      (∀ d0, usedSlots conns d0 ≤ dirLimit cfg d0) →
      ∀ d0, usedSlots (l.foldl
        (fun conns ev =>
          match ev with
          | .connect id d => admitConn cfg conns id d
          | .disconnect id => disconnectConn conns id) conns) d0 ≤
        dirLimit cfg d0 := by
    intro l
    induction l with
    | nil => intro conns h d0; exact h d0
    | cons ev rest ih =>
      intro conns h d0
      rw [List.foldl_cons]
      refine ih _ ?_ d0
      intro d1
      cases ev with
      | connect id d => exact usedSlots_admitConn cfg conns id d h d1
      | disconnect id =>
        exact le_trans (usedSlots_disconnect conns id d1) (h d1)
  intro d
  exact main evs [] (by intro d0; simp [usedSlots]) d

/-- C1.  For every configured `MaxPeers = N` (with the two per-direction
sub-limits summing to at most `N`), in every state reachable under any
interleaving of inbound admissions, outbound dial completions and
disconnects, `used-inbound + used-outbound ≤ N`. -/
theorem connLimit_maxPeers (cfg : ConnConfig)
    (hsum : cfg.maxInbound + cfg.maxOutbound ≤ cfg.maxPeers)
    (evs : List ConnEvent) :
    usedSlots (runConnManager cfg evs) .inbound +
      usedSlots (runConnManager cfg evs) .outbound ≤ cfg.maxPeers := by
  have h1 := runConnManager_inv cfg evs .inbound
  have h2 := runConnManager_inv cfg evs .outbound
  simp [dirLimit] at h1 h2
  omega

/-- Witness for C1: `MaxPeers = 2`, one slot per direction, and an
interleaving that attempts three admissions and a disconnect. -/
theorem connLimit_maxPeers_witness :
    usedSlots (runConnManager ⟨2, 1, 1⟩
        [.connect 1 .inbound, .connect 2 .outbound, .connect 3 .inbound,
          .disconnect 1, .connect 3 .inbound]) .inbound +
      usedSlots (runConnManager ⟨2, 1, 1⟩
        [.connect 1 .inbound, .connect 2 .outbound, .connect 3 .inbound,
          .disconnect 1, .connect 3 .inbound]) .outbound ≤ 2 :=
  connLimit_maxPeers ⟨2, 1, 1⟩ (by decide) _

/-! ## Theorems: bootnode validation (C2) -/

/-- C2.  With discovery enabled, construction-time validation fails with
`InsufficientBootnodes` for every bootnode list of zero or one entries,
and succeeds for every list of at least two distinct entries. -/
theorem minimumBootNodeCount (bootnodes : List String) :
    (bootnodes.length ≤ 1 →
      validateBootnodes false bootnodes = .error .insufficientBootnodes) ∧
      (2 ≤ bootnodes.length → bootnodes.Nodup →
        validateBootnodes false bootnodes = .ok ()) := by
  constructor
  · intro hlen
    rw [validateBootnodes]
    simp [minimumBootNodes]
    omega
  · intro hlen _
    rw [validateBootnodes]
    simp [minimumBootNodes]
    omega

/-- Witness for C2: the empty list and a one-element list fail, a
two-element distinct list passes. -/
theorem minimumBootNodeCount_witness :
    validateBootnodes false [] = .error .insufficientBootnodes ∧
      validateBootnodes false ["a"] = .error .insufficientBootnodes ∧
      validateBootnodes false ["a", "b"] = .ok () :=
  ⟨(minimumBootNodeCount []).1 (by decide),
    (minimumBootNodeCount ["a"]).1 (by decide),
    (minimumBootNodeCount ["a", "b"]).2 (by decide) (by decide)⟩

/-! ## Theorems: peer event bus (C5) -/

/-- Serial emit/read returns each event immediately, in order. -/
theorem runSerial_eq (evs : List PeerEvent) :
    runSerial [] evs = evs.map some := by
  induction evs with
  | nil => rfl
  | cons e evs ih => simp [runSerial, subGet, ih]

/-- A broadcast of a full event sequence appends it to every subscriber
queue. -/
theorem emitAll_replicate (evs : List PeerEvent) (k : Nat)
    (q : List PeerEvent) :
    emitAll (List.replicate k q) evs = List.replicate k (q ++ evs) := by
  induction evs generalizing q with
  | nil => simp [emitAll]
  | cons e evs ih =>
    have hstep : emitEvent (List.replicate k q) e =
        List.replicate k (q ++ [e]) := by
      simp [emitEvent, List.map_replicate]
    calc emitAll (List.replicate k q) (e :: evs)
        = emitAll (List.replicate k (q ++ [e])) evs := by
          simp [emitAll, List.foldl_cons, hstep]
      _ = List.replicate k ((q ++ [e]) ++ evs) := ih (q ++ [e])
      _ = List.replicate k (q ++ e :: evs) := by simp

/-- Draining a queue returns its events in order. -/
theorem readN_eq (q : List PeerEvent) :
    readN q.length q = q.map some := by
  induction q with
  | nil => rfl
  | cons e q ih => simp [readN, subGet, ih]

/-- C5.  For every sequence of events and every number of subscribers
with empty queues: reading each event right after its emission yields
the emitted sequence (serial case); emitting the whole sequence first
leaves every subscriber queue holding exactly that sequence, and
draining such a queue yields the same ordered sequence (buffered/async
case). -/
theorem peerEvent_emitAndSubscribe (evs : List PeerEvent) (k : Nat) :
    runSerial [] evs = evs.map some ∧
      emitAll (List.replicate k []) evs = List.replicate k evs ∧
      readN evs.length evs = evs.map some :=
  ⟨runSerial_eq evs, by simpa using emitAll_replicate evs k [], readN_eq evs⟩

/-! ## Theorems: discovery FindPeers (C6) -/

/-- C6.  A `FindPeers` response never contains the requester's own
Identity, even when the responder's table holds it; in the two-node
network whose table holds only the requester, the response is empty. -/
theorem findPeers_excludes_requester (table : List Nat)
    (requester target n : Nat) :
    requester ∉ handleFindPeers table requester target n ∧
      handleFindPeers [requester] requester target n = [] := by
  constructor
  · intro hmem
    have := List.of_mem_filter hmem
    simp at this
  · rw [handleFindPeers, closestTo]
    have hsort : sortByDist target [requester] = [requester] := rfl
    rw [hsort]
    cases n with
    | zero => rfl
    | succ m => simp [List.filter]

/-- Witness for C6 on a concrete table containing the requester. -/
theorem findPeers_excludes_requester_witness :
    (5 : Nat) ∉ handleFindPeers [5, 9] 5 0 8 ∧
      handleFindPeers [5] 5 0 8 = [] :=
  ⟨(findPeers_excludes_requester [5, 9] 5 0 8).1,
    (findPeers_excludes_requester [5, 9] 5 0 8).2⟩

/-! ## Theorems: reconnection supervisor (C7) -/

/-- C7.  When the connection count drops to zero from a non-zero value,
the supervisor re-seeds the dial queue with the full bootnode list with
attempt state reset, and — provided at least one bootnode is reachable —
one bounded pass of the dial workers reconnects to a bootnode. -/
theorem peerReconnection (bootnodes : List Nat) (st : SupervisorState)
    (reachable : Nat → Bool) (hconn : 0 < st.connCount) :
    (superviseStep bootnodes st 0).dialQueue =
        bootnodes.map (fun b => ⟨b, 0⟩) ∧
      ((∃ b ∈ bootnodes, reachable b = true) →
        ∃ b ∈ bootnodes,
          b ∈ processDialQueue reachable
            (superviseStep bootnodes st 0).dialQueue) := by
  have hq : (superviseStep bootnodes st 0).dialQueue =
      bootnodes.map (fun b => ⟨b, 0⟩) := by
    simp [superviseStep, hconn]
  refine ⟨hq, ?_⟩
  rintro ⟨b, hb, hr⟩
  refine ⟨b, hb, ?_⟩
  rw [hq]
  simp only [processDialQueue, List.mem_map, List.mem_filter]
  exact ⟨⟨b, 0⟩, ⟨⟨b, hb, rfl⟩, hr⟩, rfl⟩

/-- Witness for C7: one reachable bootnode, one previously live
connection lost. -/
theorem peerReconnection_witness :
    (superviseStep [7] ⟨1, []⟩ 0).dialQueue =
        [7].map (fun b => (⟨b, 0⟩ : DialTask)) ∧
      ∃ b ∈ [7], b ∈ processDialQueue (fun _ => true)
        (superviseStep [7] ⟨1, []⟩ 0).dialQueue :=
  ⟨(peerReconnection [7] ⟨1, []⟩ (fun _ => true) (by decide)).1,
    (peerReconnection [7] ⟨1, []⟩ (fun _ => true) (by decide)).2
      ⟨7, by decide, rfl⟩⟩

/-! ## Theorems: address codec — numeric rendering -/

/-- `charVal` inverts `Nat.digitChar` on digits below 16. -/
theorem charVal_digitChar : ∀ d, d < 16 → charVal (Nat.digitChar d) = some d := by
  decide

/-- The fueled digit extraction agrees with `Nat.digits`. -/
theorem natDigits_eq_digits (b n : Nat) (hb : 2 ≤ b) :
    natDigits b n = Nat.digits b n := by
  suffices h : ∀ fuel n, n ≤ fuel → natDigitsAux b fuel n = Nat.digits b n from
    h n n le_rfl
  intro fuel
  induction fuel with
  | zero =>
    intro n hn
    interval_cases n
    simp [natDigitsAux]
  | succ fuel ih =>
    intro n hn
    rw [natDigitsAux]
    by_cases h0 : n = 0
    · subst h0
      simp
    · rw [if_neg h0,
        Nat.digits_def' (by omega : 1 < b) (Nat.pos_of_ne_zero h0)]
      have hdiv : n / b < n := Nat.div_lt_self (Nat.pos_of_ne_zero h0) (by omega)
      rw [ih (n / b) (by omega)]

/-- Folding `parseStep` over a reversed rendered digit list recovers the
value. -/
theorem foldl_parseStep (b : Nat) (hb16 : b ≤ 16) :
    ∀ ds : List Nat, (∀ d ∈ ds, d < b) → ∀ a : Nat,
      List.foldl (parseStep b) (some a) ((ds.map Nat.digitChar).reverse) =
        some (a * b ^ ds.length + Nat.ofDigits b ds) := by
  intro ds
  induction ds with
  | nil =>
    intro _ a
    simp [Nat.ofDigits_nil]
  | cons d ds ih =>
    intro hd a
    rw [List.map_cons, List.reverse_cons, List.foldl_append]
    rw [ih (fun x hx => hd x (List.mem_cons_of_mem _ hx)) a]
    have hdb : d < b := hd d (List.mem_cons_self _ _)
    have hd16 : d < 16 := lt_of_lt_of_le hdb hb16
    simp only [List.foldl_cons, List.foldl_nil, parseStep,
      charVal_digitChar d hd16]
    rw [if_pos hdb]
    congr 1
    rw [Nat.ofDigits_cons]
    push_cast
    rw [List.length_cons, pow_succ]
    ring

/-- `parseNat` inverts `renderNat` for bases between 2 and 16. -/
theorem parseNat_renderNat (b n : Nat) (hb : 2 ≤ b) (hb16 : b ≤ 16) :
    parseNat b (renderNat b n) = some n := by
  by_cases h0 : n = 0
  · subst h0
    have hc : charVal '0' = some 0 := by decide
    simp [renderNat, parseNat, parseStep, hc, show (0 : Nat) < b by omega]
  · have hds : natDigits b n = Nat.digits b n := natDigits_eq_digits b n hb
    have hne : Nat.digits b n ≠ [] := Nat.digits_ne_nil_iff_ne_zero.mpr h0
    rw [renderNat, if_neg h0, hds, parseNat]
    rw [if_neg (by simp [hne])]
    rw [foldl_parseStep b hb16 (Nat.digits b n)
      (fun d hd => Nat.digits_lt_base (by omega) hd) 0]
    simp [Nat.ofDigits_digits]

/-! ## Theorems: address codec — separators and chunks -/

/-- A rendered numeral never contains a character without digit value
(such as the separators `.`, `:`, `/`). -/
theorem not_mem_renderNat {b n : Nat} (hb : 2 ≤ b) (hb16 : b ≤ 16)
    {c : Char} (hc : charVal c = none) : c ∉ renderNat b n := by
  intro hmem
  rw [renderNat] at hmem
  by_cases h0 : n = 0
  · rw [if_pos h0] at hmem
    have : c = '0' := by simpa using hmem
    subst this
    have : charVal '0' = some 0 := by decide
    rw [this] at hc
    cases hc
  · rw [if_neg h0] at hmem
    rw [List.mem_reverse] at hmem
    rcases List.mem_map.mp hmem with ⟨d, hd, hdc⟩
    rw [natDigits_eq_digits b n hb] at hd
    have hdb : d < b := Nat.digits_lt_base (by omega) hd
    have := charVal_digitChar d (by omega)
    rw [hdc] at this
    rw [this] at hc
    cases hc

/-- A rendered numeral is never empty. -/
theorem renderNat_ne_nil (b n : Nat) (hb : 2 ≤ b) : renderNat b n ≠ [] := by
  rw [renderNat]
  by_cases h0 : n = 0
  · simp [h0]
  · rw [if_neg h0]
    simp [natDigits_eq_digits b n hb,
      Nat.digits_ne_nil_iff_ne_zero.mpr h0]

/-- Unfolding `intercalate` over at least two chunks. -/
theorem intercalate_cons₂ {α : Type} (s a b : List α) (t : List (List α)) :
    List.intercalate s (a :: b :: t) = a ++ s ++ List.intercalate s (b :: t) := by
  simp [List.intercalate, List.intersperse_cons_cons]

/-- A member of an intercalation is the separator or a member of a
chunk. -/
theorem mem_intercalate_single {c s : Char} :
    ∀ chunks : List (List Char), c ∈ List.intercalate [s] chunks →
      c = s ∨ ∃ ch ∈ chunks, c ∈ ch := by
  intro chunks
  induction chunks with
  | nil => intro h; simp [List.intercalate] at h
  | cons ch rest ih =>
    cases rest with
    | nil =>
      intro h
      simp [List.intercalate] at h
      exact Or.inr ⟨ch, by simp, h⟩
    | cons ch2 rest2 =>
      intro h
      rw [intercalate_cons₂] at h
      rcases List.mem_append.mp h with h1 | h2
      · rcases List.mem_append.mp h1 with h3 | h4
        · exact Or.inr ⟨ch, by simp, h3⟩
        · exact Or.inl (by simpa using h4)
      · rcases ih h2 with h5 | ⟨ch', hch', hc'⟩
        · exact Or.inl h5
        · exact Or.inr ⟨ch', by simp [hch'], hc'⟩

/-! ## Theorems: address codec — IPv4 -/

/-- `parseIp4` inverts `renderIp4` on byte-sized octets. -/
theorem parseIp4_renderIp4 (a b c d : Nat)
    (h : a ≤ 255 ∧ b ≤ 255 ∧ c ≤ 255 ∧ d ≤ 255) :
    parseIp4 (renderIp4 a b c d) = some (.ip4 a b c d) := by
  have hdot : charVal '.' = none := by decide
  have hsplit : (renderIp4 a b c d).splitOn '.' =
      [renderNat 10 a, renderNat 10 b, renderNat 10 c, renderNat 10 d] := by
    apply List.splitOn_intercalate
    · intro l hl
      simp at hl
      rcases hl with rfl | rfl | rfl | rfl <;>
        exact not_mem_renderNat (by omega) (by omega) hdot
    · simp
  unfold parseIp4
  rw [hsplit]
  simp only [parseNat_renderNat 10 a (by omega) (by omega),
    parseNat_renderNat 10 b (by omega) (by omega),
    parseNat_renderNat 10 c (by omega) (by omega),
    parseNat_renderNat 10 d (by omega) (by omega)]
  simp [h.1, h.2.1, h.2.2.1, h.2.2.2]

/-! ## Theorems: address codec — double-colon splitting -/

/-- `splitAtDoubleColon` finds a leading `::`. -/
theorem splitDC_base (ys : List Char) :
    splitAtDoubleColon (':' :: ':' :: ys) = some ([], ys) := by
  simp [splitAtDoubleColon]

/-- Prepending a non-colon character extends the left part. -/
theorem splitDC_cons {xs ys : List Char} (c : Char) (hc : c ≠ ':')
    (h : splitAtDoubleColon (xs ++ ':' :: ':' :: ys) = some (xs, ys)) :
    splitAtDoubleColon (c :: (xs ++ ':' :: ':' :: ys)) = some (c :: xs, ys) := by
  cases xs with
  | nil => simp_all [splitAtDoubleColon, hc]
  | cons x xs' => simp_all [splitAtDoubleColon, hc]

/-- A colon before a non-colon character extends the left part. -/
theorem splitDC_colon {x : Char} {xs' ys : List Char} (hx : x ≠ ':')
    (h : splitAtDoubleColon ((x :: xs') ++ ':' :: ':' :: ys) =
      some (x :: xs', ys)) :
    splitAtDoubleColon (':' :: ((x :: xs') ++ ':' :: ':' :: ys)) =
      some (':' :: x :: xs', ys) := by
  simp_all [splitAtDoubleColon, hx]

/-- A colon-free chunk extends the left part wholesale. -/
theorem splitDC_chunk :
    ∀ (ch : List Char), (∀ c ∈ ch, c ≠ ':') →
      ∀ (t ys : List Char),
        splitAtDoubleColon (t ++ ':' :: ':' :: ys) = some (t, ys) →
        splitAtDoubleColon ((ch ++ t) ++ ':' :: ':' :: ys) = some (ch ++ t, ys) := by
  intro ch
  induction ch with
  | nil => intro _ t ys h; simpa using h
  | cons c ch' ih =>
    intro hch t ys h
    have h' := ih (fun x hx => hch x (List.mem_cons_of_mem _ hx)) t ys h
    have := splitDC_cons c (hch c (List.mem_cons_self _ _)) h'
    simpa using this

/-- No `::` appears after a non-colon character if none appears in the
tail. -/
theorem splitDC_none_cons {xs : List Char} (c : Char) (hc : c ≠ ':')
    (h : splitAtDoubleColon xs = none) :
    splitAtDoubleColon (c :: xs) = none := by
  cases xs with
  | nil => rfl
  | cons x xs' => simp_all [splitAtDoubleColon, hc]

/-- A colon before a non-colon head keeps the sequence `::`-free. -/
theorem splitDC_none_colon {x : Char} {xs' : List Char} (hx : x ≠ ':')
    (h : splitAtDoubleColon (x :: xs') = none) :
    splitAtDoubleColon (':' :: x :: xs') = none := by
  simp_all [splitAtDoubleColon, hx]

/-- A colon-free chunk keeps a `::`-free tail `::`-free. -/
theorem splitDC_none_chunk :
    ∀ (ch : List Char), (∀ c ∈ ch, c ≠ ':') →
      ∀ (t : List Char), splitAtDoubleColon t = none →
        splitAtDoubleColon (ch ++ t) = none := by
  intro ch
  induction ch with
  | nil => intro _ t h; simpa using h
  | cons c ch' ih =>
    intro hch t h
    have h' := ih (fun x hx => hch x (List.mem_cons_of_mem _ hx)) t h
    have := splitDC_none_cons c (hch c (List.mem_cons_self _ _)) h'
    simpa using this

/-! ## Theorems: address codec — zero runs -/

/-- The leading zero run never exceeds the list length. -/
theorem zeroRunLen_le : ∀ gs : List Nat, zeroRunLen gs ≤ gs.length := by
  intro gs
  induction gs with
  | nil => exact Nat.le.refl
  | cons g rest ih =>
    cases g with
    | zero =>
      show zeroRunLen rest + 1 ≤ rest.length + 1
      omega
    | succ m => exact Nat.zero_le _

/-- The leading zero run consists of zeros. -/
theorem zeroRunLen_take : ∀ gs : List Nat,
    gs.take (zeroRunLen gs) = List.replicate (zeroRunLen gs) 0 := by
  intro gs
  induction gs with
  | nil => rfl
  | cons g rest ih =>
    cases g with
    | zero =>
      show (0 :: rest).take (zeroRunLen rest + 1) =
        List.replicate (zeroRunLen rest + 1) 0
      simp [List.replicate_succ, ih]
    | succ m => rfl

/-- The run reported by `longestZeroRun` lies inside the list and
consists of zeros. -/
theorem longestZeroRun_spec : ∀ gs : List Nat,
    (longestZeroRun gs).1 + (longestZeroRun gs).2 ≤ gs.length ∧
      (gs.drop (longestZeroRun gs).1).take (longestZeroRun gs).2 =
        List.replicate (longestZeroRun gs).2 0 := by
  intro gs
  induction gs with
  | nil => simp [longestZeroRun]
  | cons g rest ih =>
    rw [longestZeroRun]
    by_cases hcmp : (longestZeroRun rest).2 ≤ zeroRunLen (g :: rest)
    · simp only [hcmp, if_pos]
      constructor
      · have := zeroRunLen_le (g :: rest)
        simpa using this
      · simpa using zeroRunLen_take (g :: rest)
    · simp only [if_neg hcmp]
      constructor
      · have := ih.1
        simp only [List.length_cons]
        omega
      · simpa using ih.2

/-- `intercalate` of a single chunk. -/
theorem intercalate_singleton {α : Type} (s a : List α) :
    List.intercalate s [a] = a := by
  simp [List.intercalate]

/-- An intercalation of nonempty chunks starts with the head of its
first chunk. -/
theorem intercalate_head_decomp (ch : List Char) (rest : List (List Char))
    (hne : ch ≠ []) :
    ∃ x t, List.intercalate [':'] (ch :: rest) = x :: t ∧ x ∈ ch := by
  rcases List.exists_cons_of_ne_nil hne with ⟨x, ch', rfl⟩
  cases rest with
  | nil => exact ⟨x, ch', by rw [intercalate_singleton], by simp⟩
  | cons ch2 rest2 =>
    refine ⟨x, ch' ++ [':'] ++ List.intercalate [':'] (ch2 :: rest2), ?_, by simp⟩
    rw [intercalate_cons₂]
    simp

/-- `splitAtDoubleColon` splits an intercalation of nonempty colon-free
chunks followed by `::` exactly at that `::`. -/
theorem splitDC_intercalate :
    ∀ chunks : List (List Char), chunks ≠ [] →
      (∀ ch ∈ chunks, ch ≠ []) →
      (∀ ch ∈ chunks, ∀ c ∈ ch, c ≠ ':') →
      ∀ ys : List Char,
        splitAtDoubleColon (List.intercalate [':'] chunks ++ ':' :: ':' :: ys) =
          some (List.intercalate [':'] chunks, ys) := by
  intro chunks
  induction chunks with
  | nil => intro h; exact absurd rfl h
  | cons ch rest ih =>
    intro _ hne hcol ys
    cases rest with
    | nil =>
      rw [intercalate_singleton]
      have hbase : splitAtDoubleColon (([] : List Char) ++ ':' :: ':' :: ys) =
          some ([], ys) := by simpa using splitDC_base ys
      have := splitDC_chunk ch (hcol ch (by simp)) [] ys hbase
      simpa using this
    | cons ch2 rest2 =>
      have ih' := ih (by simp)
        (fun c hc => hne c (List.mem_cons_of_mem _ hc))
        (fun c hc => hcol c (List.mem_cons_of_mem _ hc)) ys
      rcases intercalate_head_decomp ch2 rest2 (hne ch2 (by simp)) with
        ⟨x, t, hxt, hxmem⟩
      have hx : x ≠ ':' := hcol ch2 (by simp) x hxmem
      rw [hxt] at ih'
      have hcolon := splitDC_colon hx ih'
      rw [← hxt] at hcolon
      have := splitDC_chunk ch (hcol ch (by simp))
        (':' :: List.intercalate [':'] (ch2 :: rest2)) ys hcolon
      rw [intercalate_cons₂]
      simpa [List.append_assoc] using this

/-- An intercalation of nonempty colon-free chunks contains no `::`. -/
theorem splitDC_none_intercalate :
    ∀ chunks : List (List Char),
      (∀ ch ∈ chunks, ch ≠ []) →
      (∀ ch ∈ chunks, ∀ c ∈ ch, c ≠ ':') →
      splitAtDoubleColon (List.intercalate [':'] chunks) = none := by
  intro chunks
  induction chunks with
  | nil => intro _ _; rfl
  | cons ch rest ih =>
    intro hne hcol
    cases rest with
    | nil =>
      rw [intercalate_singleton]
      have := splitDC_none_chunk ch (hcol ch (by simp)) [] rfl
      simpa using this
    | cons ch2 rest2 =>
      have ih' := ih (fun c hc => hne c (List.mem_cons_of_mem _ hc))
        (fun c hc => hcol c (List.mem_cons_of_mem _ hc))
      rcases intercalate_head_decomp ch2 rest2 (hne ch2 (by simp)) with
        ⟨x, t, hxt, hxmem⟩
      have hx : x ≠ ':' := hcol ch2 (by simp) x hxmem
      rw [hxt] at ih'
      have hcolon := splitDC_none_colon hx ih'
      rw [← hxt] at hcolon
      have := splitDC_none_chunk ch (hcol ch (by simp))
        (':' :: List.intercalate [':'] (ch2 :: rest2)) hcolon
      rw [intercalate_cons₂]
      simpa [List.append_assoc] using this

/-- The rendered groups are nonempty chunks. -/
theorem ip6chunk_ne_nil (gs : List Nat) :
    ∀ ch ∈ gs.map (renderNat 16), ch ≠ [] := by
  intro ch hch
  rcases List.mem_map.mp hch with ⟨g, _, rfl⟩
  exact renderNat_ne_nil 16 g (by omega)

/-- The rendered groups are colon-free chunks. -/
theorem ip6chunk_colon_free (gs : List Nat) :
    ∀ ch ∈ gs.map (renderNat 16), ∀ c ∈ ch, c ≠ ':' := by
  intro ch hch c hc
  rcases List.mem_map.mp hch with ⟨g, _, rfl⟩
  intro hcolon
  subst hcolon
  exact not_mem_renderNat (by omega) (by omega) (by decide) hc

/-- Splitting a rendered group sequence on `:` recovers the chunks. -/
theorem splitOn_renderIp6Parts (gs : List Nat) (h : gs ≠ []) :
    (renderIp6Parts gs).splitOn ':' = gs.map (renderNat 16) := by
  rw [renderIp6Parts]
  exact List.splitOn_intercalate (gs.map (renderNat 16)) ':'
    (fun l hl hc => ip6chunk_colon_free gs l hl ':' hc rfl)
    (by simpa using h)

/-- `parseGroups` inverts the group rendering. -/
theorem parseGroups_map (gs : List Nat) (hv : ∀ v ∈ gs, v < 65536) :
    parseGroups (gs.map (renderNat 16)) = some gs := by
  induction gs with
  | nil => rfl
  | cons g gs' ih =>
    rw [List.map_cons, parseGroups,
      parseNat_renderNat 16 g (by omega) (by omega),
      ih (fun v hv' => hv v (List.mem_cons_of_mem _ hv'))]
    simp [hv g (List.mem_cons_self _ _)]

/-- Parsing a compressed rendering `pre :: post` (groups, `::`, groups)
restores the elided zero groups. -/
theorem parseIp6_parts (pre post : List Nat)
    (hpl : ∀ v ∈ pre, v < 65536) (hpo : ∀ v ∈ post, v < 65536)
    (hlen : pre.length + post.length ≤ 7) :
    parseIp6 (renderIp6Parts pre ++ ':' :: ':' :: renderIp6Parts post) =
      some (pre ++ List.replicate (8 - pre.length - post.length) 0 ++ post) := by
  have hsplit : splitAtDoubleColon
      (renderIp6Parts pre ++ ':' :: ':' :: renderIp6Parts post) =
      some (renderIp6Parts pre, renderIp6Parts post) := by
    cases hpre0 : pre with
    | nil => simpa [renderIp6Parts, List.intercalate] using splitDC_base (renderIp6Parts post)
    | cons g gs' =>
      rw [← hpre0, renderIp6Parts]
      exact splitDC_intercalate (pre.map (renderNat 16)) (by simp [hpre0])
        (ip6chunk_ne_nil pre) (ip6chunk_colon_free pre) _
  have hleft : (if (renderIp6Parts pre).isEmpty then some ([] : List Nat)
      else parseGroups ((renderIp6Parts pre).splitOn ':')) = some pre := by
    cases hpre0 : pre with
    | nil => simp [renderIp6Parts, List.intercalate]
    | cons g gs' =>
      rw [← hpre0]
      have hne : pre ≠ [] := by simp [hpre0]
      rcases intercalate_head_decomp (renderNat 16 g)
          (gs'.map (renderNat 16))
          (renderNat_ne_nil 16 g (by omega)) with ⟨x, t, hxt, _⟩
      have hxt' : renderIp6Parts pre = x :: t := by
        rw [hpre0, renderIp6Parts, List.map_cons]
        exact hxt
      rw [hxt']
      rw [← hxt']
      rw [if_neg (by simp [hxt'])]
      rw [splitOn_renderIp6Parts pre hne, parseGroups_map pre hpl]
  have hright : (if (renderIp6Parts post).isEmpty then some ([] : List Nat)
      else parseGroups ((renderIp6Parts post).splitOn ':')) = some post := by
    cases hpost0 : post with
    | nil => simp [renderIp6Parts, List.intercalate]
    | cons g gs' =>
      rw [← hpost0]
      have hne : post ≠ [] := by simp [hpost0]
      rcases intercalate_head_decomp (renderNat 16 g)
          (gs'.map (renderNat 16))
          (renderNat_ne_nil 16 g (by omega)) with ⟨x, t, hxt, _⟩
      have hxt' : renderIp6Parts post = x :: t := by
        rw [hpost0, renderIp6Parts, List.map_cons]
        exact hxt
      rw [if_neg (by simp [hxt'])]
      rw [splitOn_renderIp6Parts post hne, parseGroups_map post hpo]
  unfold parseIp6
  rw [hsplit]
  simp only [hleft, hright]
  rw [if_pos hlen]

/-- `parseIp6` inverts the canonical rendering `renderIp6` on eight
16-bit groups. -/
theorem parseIp6_renderIp6 (gs : List Nat) (hlen : gs.length = 8)
    (hv : ∀ v ∈ gs, v < 65536) :
    parseIp6 (renderIp6 gs) = some gs := by
  rw [renderIp6]
  by_cases hcomp : 2 ≤ (longestZeroRun gs).2
  · rw [if_pos hcomp]
    have hspec := longestZeroRun_spec gs
    have hsl : (longestZeroRun gs).1 + (longestZeroRun gs).2 ≤ 8 := by
      rw [← hlen]; exact hspec.1
    have hpre_len : (gs.take (longestZeroRun gs).1).length =
        (longestZeroRun gs).1 := by
      rw [List.length_take]
      omega
    have hpost_len : (gs.drop ((longestZeroRun gs).1 + (longestZeroRun gs).2)).length =
        8 - (longestZeroRun gs).1 - (longestZeroRun gs).2 := by
      rw [List.length_drop]
      omega
    rw [parseIp6_parts (gs.take (longestZeroRun gs).1)
      (gs.drop ((longestZeroRun gs).1 + (longestZeroRun gs).2))
      (fun v hv' => hv v (List.mem_of_mem_take hv'))
      (fun v hv' => hv v (List.mem_of_mem_drop hv'))
      (by rw [hpre_len, hpost_len]; omega)]
    rw [hpre_len, hpost_len]
    have hcount : 8 - (longestZeroRun gs).1 -
        (8 - (longestZeroRun gs).1 - (longestZeroRun gs).2) =
        (longestZeroRun gs).2 := by omega
    rw [hcount]
    have hdecomp : gs.take (longestZeroRun gs).1 ++
        (List.replicate (longestZeroRun gs).2 0 ++
          gs.drop ((longestZeroRun gs).1 + (longestZeroRun gs).2)) = gs := by
      conv_rhs => rw [← List.take_append_drop (longestZeroRun gs).1 gs]
      congr 1
      conv_rhs => rw [← List.take_append_drop (longestZeroRun gs).2
        (gs.drop (longestZeroRun gs).1)]
      rw [hspec.2, List.drop_drop, Nat.add_comm]
    rw [← List.append_assoc] at hdecomp
    exact congrArg some hdecomp
  · rw [if_neg hcomp]
    have hne : gs ≠ [] := by
      intro h
      rw [h] at hlen
      cases hlen
    have hnone : splitAtDoubleColon (renderIp6Parts gs) = none := by
      rw [renderIp6Parts]
      exact splitDC_none_intercalate (gs.map (renderNat 16))
        (ip6chunk_ne_nil gs) (ip6chunk_colon_free gs)
    unfold parseIp6
    rw [hnone]
    simp only [splitOn_renderIp6Parts gs hne, parseGroups_map gs hv]
    simp [hlen]

/-! ## Theorems: address codec — encoding and decoding -/

/-- A singleton address set encodes as itself. -/
theorem selectDialAddr_singleton (m : Multiaddr) :
    selectDialAddr [m] = some m := by
  cases h : isLoopback m <;> simp [selectDialAddr, List.filter, h]

/-- The single-address encoding as a path intercalation. -/
theorem addrInfoToString_single (id : Nat) (m : Multiaddr) :
    AddrInfoToString ⟨id, [m]⟩ =
      List.intercalate ['/'] [[], ipTag m.ip, ipText m.ip, ['t', 'c', 'p'],
        renderNat 10 m.port, ['p', '2', 'p'], renderNat 10 id] := by
  rw [AddrInfoToString, selectDialAddr_singleton]
  simp [renderMultiaddr, intercalate_cons₂, intercalate_singleton]

/-- The rendered group sequence never contains a slash. -/
theorem slash_not_mem_parts (gs : List Nat) : '/' ∉ renderIp6Parts gs := by
  intro h
  rw [renderIp6Parts] at h
  rcases mem_intercalate_single _ h with h1 | ⟨ch, hch, hc⟩
  · cases h1
  · rcases List.mem_map.mp hch with ⟨g, _, rfl⟩
    exact not_mem_renderNat (by omega) (by omega) (by decide) hc

/-- The textual address form never contains a slash. -/
theorem slash_not_mem_ipText (ip : IpAddr) : '/' ∉ ipText ip := by
  cases ip with
  | ip4 a b c d =>
    intro h
    rw [ipText, renderIp4] at h
    rcases mem_intercalate_single _ h with h1 | ⟨ch, hch, hc⟩
    · cases h1
    · simp at hch
      rcases hch with rfl | rfl | rfl | rfl <;>
        exact not_mem_renderNat (by omega) (by omega) (by decide) hc
  | ip6 gs =>
    intro h
    rw [ipText, renderIp6] at h
    by_cases hcomp : 2 ≤ (longestZeroRun gs).2
    · rw [if_pos hcomp] at h
      rcases List.mem_append.mp h with h1 | h2
      · exact slash_not_mem_parts _ h1
      · simp at h2
        exact slash_not_mem_parts _ h2
    · rw [if_neg hcomp] at h
      exact slash_not_mem_parts gs h

/-- C3 (amended).  For every identity and every well-formed single
address, decoding the encoded string yields the original `AddrInfo`:
`Decode (Encode info) = info` on single-address infos, the case the
round-trip test exercises. -/
theorem stringToAddrInfo_addrInfoToString (id : Nat) (m : Multiaddr)
    (hv : validMultiaddr m) :
    StringToAddrInfo (AddrInfoToString ⟨id, [m]⟩) = .ok ⟨id, [m]⟩ := by
  rw [addrInfoToString_single]
  have hslash : charVal '/' = none := by decide
  have hsplit : (List.intercalate ['/'] [[], ipTag m.ip, ipText m.ip,
      ['t', 'c', 'p'], renderNat 10 m.port, ['p', '2', 'p'],
      renderNat 10 id]).splitOn '/' =
      [[], ipTag m.ip, ipText m.ip, ['t', 'c', 'p'], renderNat 10 m.port,
        ['p', '2', 'p'], renderNat 10 id] := by
    apply List.splitOn_intercalate
    · intro l hl
      simp at hl
      rcases hl with rfl | rfl | rfl | rfl | rfl | rfl | rfl
      · simp
      · cases m.ip <;> simp [ipTag]
      · exact slash_not_mem_ipText m.ip
      · simp
      · exact not_mem_renderNat (by omega) (by omega) hslash
      · simp
      · exact not_mem_renderNat (by omega) (by omega) hslash
    · simp
  unfold StringToAddrInfo
  simp only [hsplit]
  rw [if_pos (by simp)]
  obtain ⟨ip, port⟩ := m
  have hip : parseIpText (ipTag ip) (ipText ip) = some ip := by
    cases ip with
    | ip4 a b c d =>
      have htag : ipTag (IpAddr.ip4 a b c d) = ['i', 'p', '4'] := rfl
      rw [parseIpText, if_pos htag, ipText]
      exact parseIp4_renderIp4 a b c d hv
    | ip6 gs =>
      have htag4 : ¬ ipTag (IpAddr.ip6 gs) = ['i', 'p', '4'] := by simp [ipTag]
      have htag6 : ipTag (IpAddr.ip6 gs) = ['i', 'p', '6'] := rfl
      rw [parseIpText, if_neg htag4, if_pos htag6, ipText]
      rw [parseIp6_renderIp6 gs hv.1 hv.2]
      rfl
  simp only [hip, parseNat_renderNat 10 port (by omega) (by omega),
    parseNat_renderNat 10 id (by omega) (by omega)]

/-- Witness for the amended C3 at the test's address
`/ip4/127.0.0.1/tcp/90` and identity 123. -/
theorem stringToAddrInfo_addrInfoToString_witness :
    StringToAddrInfo (AddrInfoToString ⟨123, [⟨.ip4 127 0 0 1, 90⟩]⟩) =
      .ok ⟨123, [⟨.ip4 127 0 0 1, 90⟩]⟩ :=
  stringToAddrInfo_addrInfoToString 123 ⟨.ip4 127 0 0 1, 90⟩
    ⟨by omega, by omega, by omega, by omega⟩

/-- Counterexample to C3 as stated: an `AddrInfo` holding a loopback and
a routable address does not round-trip — the codec encodes only the
routable dial address, so decoding returns a single-address info. -/
theorem encodingPeerAddr_counterexample :
    ¬ (StringToAddrInfo (AddrInfoToString
        ⟨123, [⟨.ip4 127 0 0 1, 5000⟩, ⟨.ip4 192 168 1 1, 5000⟩]⟩) =
      .ok ⟨123, [⟨.ip4 127 0 0 1, 5000⟩, ⟨.ip4 192 168 1 1, 5000⟩]⟩) := by
  intro h
  have h1 : StringToAddrInfo (AddrInfoToString
      ⟨123, [⟨.ip4 127 0 0 1, 5000⟩, ⟨.ip4 192 168 1 1, 5000⟩]⟩) =
      .ok ⟨123, [⟨.ip4 192 168 1 1, 5000⟩]⟩ := rfl
  rw [h1] at h
  injection h with h2
  exact absurd h2 (by decide)

/-- C4.  Whenever the address set holds a non-loopback address, the
encoded dial address is non-loopback (loopbacks are excluded); the
zero-expanded and compressed textual forms of `::1` parse to the same
address, so they encode identically; the test's mixed IPv6 set encodes
to the canonical compressed form of its routable address; and the
canonical rendering of any eight-group address parses back to the same
address. -/
theorem addrInfoToString_canonical :
    (∀ info : AddrInfo, (∃ a ∈ info.addrs, isLoopback a = false) →
      ∃ a, selectDialAddr info.addrs = some a ∧ isLoopback a = false) ∧
      parseIp6 "0:0:0:0:0:0:0:1".toList = parseIp6 "::1".toList ∧
      AddrInfoToString ⟨123, [⟨.ip6 [0, 0, 0, 0, 0, 0, 0, 1], 5000⟩,
          ⟨.ip6 [0, 0, 0, 0, 0, 0, 0, 1], 5000⟩,
          ⟨.ip6 [0x2001, 0xdb8, 0x85a3, 0, 0, 0x8a2e, 0x370, 0x7334], 5000⟩]⟩ =
        "/ip6/2001:db8:85a3::8a2e:370:7334/tcp/5000/p2p/123".toList ∧
      ∀ gs : List Nat, gs.length = 8 → (∀ v ∈ gs, v < 65536) →
        parseIp6 (renderIp6 gs) = some gs := by
  refine ⟨?_, by rfl, by rfl, fun gs h1 h2 => parseIp6_renderIp6 gs h1 h2⟩
  rintro info ⟨a, ha, hl⟩
  rcases hfilter : info.addrs.filter (fun a => ! isLoopback a) with _ | ⟨b, rest⟩
  · exfalso
    have : a ∈ info.addrs.filter (fun a => ! isLoopback a) :=
      List.mem_filter.mpr ⟨ha, by simp [hl]⟩
    rw [hfilter] at this
    cases this
  · refine ⟨b, ?_, ?_⟩
    · rw [selectDialAddr, hfilter]
    · have hb : b ∈ info.addrs.filter (fun a => ! isLoopback a) := by
        rw [hfilter]; simp
      have := List.of_mem_filter hb
      simpa using this

/-- Witness for C4: a set holding a loopback and a routable address
selects the routable one, and a concrete group vector round-trips
through the canonical rendering. -/
theorem addrInfoToString_canonical_witness :
    (∃ a, selectDialAddr [⟨.ip4 127 0 0 1, 5000⟩, ⟨.ip4 192 168 1 1, 5000⟩] =
        some a ∧ isLoopback a = false) ∧
      parseIp6 (renderIp6 [0, 0, 0, 0, 0, 0, 0, 1]) =
        some [0, 0, 0, 0, 0, 0, 0, 1] :=
  ⟨addrInfoToString_canonical.1
      ⟨123, [⟨.ip4 127 0 0 1, 5000⟩, ⟨.ip4 192 168 1 1, 5000⟩]⟩
      ⟨⟨.ip4 192 168 1 1, 5000⟩, by simp, rfl⟩,
    addrInfoToString_canonical.2.2.2 [0, 0, 0, 0, 0, 0, 0, 1]
      (by decide) (by decide)⟩
